import Mathlib

/-!
Shallow embedding of the tagfs filesystem core (inode codec, tag tree,
tag index, protocol adapter operations, backing-store read) together with
theorems settling the specification claims about it.

Conventions of the embedding:
* Rust `u64` values are modelled as `Nat`, with `% 2 ^ 64` inserted exactly
  where the machine arithmetic could wrap (`<<` in `Ino::from_parts`).
* Hash maps / hash sets / `IndexMap` / `BiMap` are modelled as association
  lists; `IndexMap` preserves insertion order, `BiMap.insert` removes any
  pair that collides on either side (the `bimap` crate's overwriting insert),
  and hash sets are lists used up to membership.
* `Rc<RefCell<TagNode>>` graphs are modelled as an arena of nodes keyed by
  their `ino_part` (which is unique: the tree's counter issues each exactly
  once, and the cache is keyed by it).
* Code paths that can panic (`unwrap` / `expect`) are modelled with `Option`:
  `none` is the panic.
-/

/-! ## Error codes (libc values used at the FUSE boundary) -/

def errNoEnt : Nat := 2
def errInOut : Nat := 5
def errNotDir : Nat := 20
def errNotSup : Nat := 95

/-! ## Inode codec (src/file/ino.rs) -/

namespace Ino

def SPLIT : Nat := 32

def ROOT_INO : Nat := 1

/-- `Ino::file`: `self.0 >> SPLIT`. -/
def file (i : Nat) : Nat := i >>> SPLIT

/-- `Ino::tag`: `self.0 & (!0 >> SPLIT)` over `u64`. -/
def tag (i : Nat) : Nat := i &&& ((2 ^ 64 - 1) >>> SPLIT)

/-- `Ino::is_tag`: `self.file() == 0`. -/
def is_tag (i : Nat) : Bool := file i == 0

/-- `Ino::is_file`: `!self.is_tag()`. -/
def is_file (i : Nat) : Bool := !is_tag i

/-- `Ino::from_parts`: `(file << SPLIT) | tag`, with the `u64` wrap of the
shift made explicit. -/
def from_parts (f t : Nat) : Nat := ((f <<< SPLIT) % 2 ^ 64) ||| (t % 2 ^ 64)

/-- `Ino::from_tag`: `from_parts(0, tag)`. -/
def from_tag (t : Nat) : Nat := from_parts 0 t

def ROOT : Nat := ROOT_INO

end Ino

/-! ## Claim C5: inode codec round-trip -/

theorem Ino.from_parts_eq_of_lt (f t : Nat) (hf : f < 2 ^ 32) (ht : t < 2 ^ 32) :
    Ino.from_parts f t = 2 ^ 32 * f + t := by
  unfold Ino.from_parts Ino.SPLIT
  rw [Nat.shiftLeft_eq]
  have h1 : f * 2 ^ 32 < 2 ^ 64 := by
    have := Nat.mul_lt_mul_of_lt_of_le hf (Nat.le_refl (2 ^ 32)) (by norm_num)
    calc f * 2 ^ 32 < 2 ^ 32 * 2 ^ 32 := this
    _ = 2 ^ 64 := by norm_num
  have h2 : t < 2 ^ 64 := lt_trans ht (by norm_num)
  rw [Nat.mod_eq_of_lt h1, Nat.mod_eq_of_lt h2, Nat.mul_comm,
    ← Nat.mul_add_lt_is_or ht]

theorem Ino.mask_eq : (2 ^ 64 - 1) >>> 32 = 2 ^ 32 - 1 := by
  rw [Nat.shiftRight_eq_div_pow]
  norm_num

/-- C5: for all `f, t < 2^32`, `file_part (from_parts f t) = f` and
`tag_part (from_parts f t) = t`; and `from_tag t` is classified as a tag
inode (`is_tag` holds, i.e. its file part is zero). -/
theorem ino_codec_roundtrip (f t : Nat) (hf : f < 2 ^ 32) (ht : t < 2 ^ 32) :
    Ino.file (Ino.from_parts f t) = f ∧ Ino.tag (Ino.from_parts f t) = t ∧
    Ino.is_tag (Ino.from_tag t) = true := by
  have hfp := Ino.from_parts_eq_of_lt f t hf ht
  have hfile : Ino.file (Ino.from_parts f t) = f := by
    rw [hfp]
    unfold Ino.file Ino.SPLIT
    rw [Nat.shiftRight_eq_div_pow, Nat.mul_add_div (by norm_num : 0 < 2 ^ 32),
      Nat.div_eq_of_lt ht, Nat.add_zero]
  refine ⟨hfile, ?_, ?_⟩
  · rw [hfp]
    unfold Ino.tag Ino.SPLIT
    rw [Ino.mask_eq, Nat.and_pow_two_sub_one_eq_mod,
      Nat.mul_add_mod, Nat.mod_eq_of_lt ht]
  · unfold Ino.from_tag Ino.is_tag
    have h0 := (Ino.from_parts_eq_of_lt 0 t (by norm_num) ht)
    rw [h0]
    simp only [Nat.mul_zero, Nat.zero_add]
    unfold Ino.file Ino.SPLIT
    rw [Nat.shiftRight_eq_div_pow, Nat.div_eq_of_lt ht]
    rfl

/-- Witness for C5 at `f = 7`, `t = 3`. -/
theorem ino_codec_roundtrip_witness :
    Ino.file (Ino.from_parts 7 3) = 7 ∧ Ino.tag (Ino.from_parts 7 3) = 3 ∧
    Ino.is_tag (Ino.from_tag 3) = true :=
  ino_codec_roundtrip 7 3 (by norm_num) (by norm_num)

/-! ## Association-list containers

`IndexMap` (insertion-ordered), `BiMap` (overwriting insert that removes any
pair colliding on either side) and `HashSet` (membership-based) are modelled
as lists. -/

def lookupAssoc {κ α : Type} [BEq κ] (l : List (κ × α)) (k : κ) : Option α :=
  (l.find? (fun p => p.1 == k)).map (fun p => p.2)

/-- `IndexMap::insert`: replace in place if the key exists, else append. -/
def indexInsert {α : Type} (l : List (Nat × α)) (k : Nat) (v : α) : List (Nat × α) :=
  if l.any (fun p => p.1 == k) then
    l.map (fun p => if p.1 == k then (k, v) else p)
  else l ++ [(k, v)]

/-- `BiMap::insert`: remove every pair that collides on the left or on the
right value, then add the new pair. -/
def bimapInsert {κ μ : Type} [BEq κ] [BEq μ] (l : List (κ × μ)) (k : κ) (v : μ) :
    List (κ × μ) :=
  (l.filter (fun p => !(p.1 == k) && !(p.2 == v))) ++ [(k, v)]

/-- `HashSet::insert`: add the element if absent. -/
def insertSet (s : List Nat) (x : Nat) : List Nat :=
  if s.contains x then s else s ++ [x]

/-! ## Tag-path tree (struct `TagTree`, `TagNode` in src/fs/tag.rs) -/

structure TagNodeData where
  ino_part : Nat
  tag : Nat
  parent : Option Nat
  children : List Nat
deriving DecidableEq

structure TagTree where
  root : Nat
  nodes : List (Nat × TagNodeData)
  counter : Nat
deriving DecidableEq

def lookupNode (nodes : List (Nat × TagNodeData)) (k : Nat) : Option TagNodeData :=
  lookupAssoc nodes k

/-- `TagTree::new`. -/
def TagTree.new : TagTree :=
  { root := Ino.ROOT
    nodes := [(Ino.ROOT,
      { ino_part := Ino.ROOT, tag := Ino.ROOT, parent := none, children := [] })]
    counter := Ino.ROOT }

/-- `TagTree::lookup`: cache lookup by `ino_part`; nodes are identified by
their `ino_part` key in the arena. -/
def TagTree.lookup (t : TagTree) (k : Nat) : Option Nat :=
  (lookupNode t.nodes k).map (fun _ => k)

/-- The per-child test of `TagNode::find_child`: does this child id resolve
to a node carrying the wanted tag? -/
def childPred (nodes : List (Nat × TagNodeData)) (tg : Nat) (cid : Nat) : Bool :=
  match lookupNode nodes cid with
  | some c => c.tag == tg
  | none => false

/-- `TagNode::find_child`: first child whose `tag` matches. -/
def TagNodeData.find_child (n : TagNodeData) (nodes : List (Nat × TagNodeData))
    (tg : Nat) : Option Nat :=
  n.children.find? (childPred nodes tg)

/-- Recursion core of `TagNode::collect_tags`, with explicit fuel.  In every
tree built by `add_to` a parent's `ino_part` is strictly smaller than its
child's, so fuel `id + 1` always suffices and the fuel never runs out on a
well-formed tree. -/
def collect_tags_fuel (nodes : List (Nat × TagNodeData)) :
    Nat → Nat → List Nat
  | 0, _ => []
  | fuel + 1, id =>
    match lookupNode nodes id with
    | none => []
    | some n =>
      match n.parent with
      | none => []
      | some pid => collect_tags_fuel nodes fuel pid ++ [n.tag]

/-- `TagNode::collect_tags`: the tags along the path from the root (excluded)
to this node, following parent pointers. -/
def TagTree.collect_tags (nodes : List (Nat × TagNodeData)) (id : Nat) : List Nat :=
  collect_tags_fuel nodes (id + 1) id

/-- `TagTree::add_to`: unconditionally create a child with a fresh `ino_part`,
append it to the parent's children, insert it into the cache. -/
def TagTree.add_to (t : TagTree) (pid : Nat) (tg : Nat) : Nat × TagTree :=
  let c := t.counter + 1
  let newNode : TagNodeData := { ino_part := c, tag := tg, parent := some pid, children := [] }
  let updated := t.nodes.map (fun p =>
    if p.1 == pid then (p.1, { p.2 with children := p.2.children ++ [c] }) else p)
  (c, { t with nodes := (updated.filter (fun p => !(p.1 == c))) ++ [(c, newNode)],
               counter := c })

/-- `TagTree::add_to_if_needed`: return the existing child for this tag if
there is one, else `add_to`. -/
def TagTree.add_to_if_needed (t : TagTree) (pid : Nat) (tg : Nat) : Nat × TagTree :=
  let child := match lookupNode t.nodes pid with
    | some pn => pn.find_child t.nodes tg
    | none => none
  match child with
  | none => t.add_to pid tg
  | some c => (c, t)

/-- `TagTree::create_new`: fresh tag number = `counter + 1`, also used as the
`ino_part` of the new root-level child. -/
def TagTree.create_new (t : TagTree) : Nat × TagTree :=
  let tnb := t.counter + 1
  let t' := (t.add_to t.root tnb).2
  (tnb, t')

/-! ## File attributes and replies -/

inductive FTy where
  | directory
  | regularFile
deriving DecidableEq

structure FileAttr where
  ino : Nat
  size : Nat
  blocks : Nat
  kind : FTy
  perm : Nat
  nlink : Nat
  uid : Nat
  gid : Nat
  blksize : Nat
deriving DecidableEq

/-- `create_folder_attrs` (src/fs/tag.rs). -/
def create_folder_attrs (ino : Nat) : FileAttr :=
  { ino := ino, size := 4096, blocks := 8, kind := .directory, perm := 0o700,
    nlink := 1, uid := 1000, gid := 1000, blksize := 512 }

inductive EntryReply where
  | entry (attr : FileAttr)
  | error (e : Nat)
deriving DecidableEq

inductive EmptyReply where
  | ok
  | error (e : Nat)
deriving DecidableEq

structure DirEntry where
  ino : Nat
  next_offset : Nat
  kind : FTy
  name : String
deriving DecidableEq

inductive DirReply where
  | entries (es : List DirEntry)
  | error (e : Nat)
deriving DecidableEq

/-! ## Tag index and protocol adapter state (struct `TagFS`) -/

def tagfsName : String := ".tagfs"

def trashName : String := ".Trash-1000"

structure TagFS where
  tree : TagTree
  tag_content : List (Nat × List Nat)
  files : List (Nat × String)
  tags : List (Nat × String)
  file_tally : Nat
deriving DecidableEq

/-- `TagFS::new` (modulo the backing handle, which the embedding passes to
each operation that uses it). -/
def TagFS.new : TagFS :=
  { tree := TagTree.new, tag_content := [], files := [], tags := [], file_tally := 1 }

def TagFS.get_fnb_by_name (st : TagFS) (name : String) : Option Nat :=
  (st.files.find? (fun p => p.2 == name)).map (fun p => p.1)

def TagFS.get_fnm_by_number (st : TagFS) (f : Nat) : Option String :=
  lookupAssoc st.files f

def TagFS.get_tnb_by_name (st : TagFS) (name : String) : Option Nat :=
  (st.tags.find? (fun p => p.2 == name)).map (fun p => p.1)

/-- `TagFS::calculate_intersection`.  The `split_first().unwrap()` on the
list of selected sets panics when it is empty; the panic is `none`. -/
def TagFS.calculate_intersection (st : TagFS) (path : List Nat) : Option (List Nat) :=
  if path.isEmpty then some (st.files.map (fun p => p.1))
  else
    let sets := (st.tag_content.filter (fun p => path.contains p.1)).map (fun p => p.2)
    match sets with
    | [] => none
    | start :: rest =>
      some (rest.foldl (fun acc s => acc.filter (fun x => s.contains x)) start)

/-- `TagFS::create_tag`. -/
def TagFS.create_tag (st : TagFS) (tg : String) : Nat × TagFS :=
  let (tnb, tree') := st.tree.create_new
  (tnb, { st with tree := tree'
                  tag_content := indexInsert st.tag_content tnb []
                  tags := bimapInsert st.tags tnb tg })

/-- `TagFS::add_file`. -/
def TagFS.add_file (st : TagFS) (file : String) : Nat × TagFS :=
  let tally := st.file_tally + 1
  (tally, { st with file_tally := tally, files := bimapInsert st.files tally file })

/-- `TagFS::add_file_to`: `tag_content.get_mut(&to).unwrap().insert(file)`;
the `unwrap` panics (`none`) when the tag has no `tag_content` entry. -/
def TagFS.add_file_to (st : TagFS) (file : Nat) (toTag : Nat) : Option TagFS :=
  if st.tag_content.any (fun p => p.1 == toTag) then
    some { st with tag_content := st.tag_content.map (fun p =>
      if p.1 == toTag then (p.1, insertSet p.2 file) else p) }
  else none

/-- `TagFS::remove_file_from`: `tag_content.get_mut(&from).unwrap().remove(&file)`. -/
def TagFS.remove_file_from (st : TagFS) (file : Nat) (fromTag : Nat) : Option TagFS :=
  if st.tag_content.any (fun p => p.1 == fromTag) then
    some { st with tag_content := st.tag_content.map (fun p =>
      if p.1 == fromTag then (p.1, p.2.filter (fun x => !(x == file))) else p) }
  else none

/-! ## Re-indexing (`TagFS::repopulate`) -/

/-- The body of `repopulate`'s `self.files.retain(..)` loop: walk the file
bindings in order; a binding whose name is in the remaining-names set is
retained (and its name consumed), any other binding is dropped and its file
number purged from every `tag_content` set. -/
def TagFS.repopGo : List (Nat × String) → List (Nat × List Nat) → List String →
    (List (Nat × String) × List (Nat × List Nat) × List String)
  | [], tc, rem => ([], tc, rem)
  | p :: ps, tc, rem =>
    if rem.contains p.2 then
      let r := TagFS.repopGo ps tc (rem.erase p.2)
      (p :: r.1, r.2.1, r.2.2)
    else
      TagFS.repopGo ps (tc.map (fun q => (q.1, q.2.filter (fun x => !(x == p.1))))) rem

/-- `TagFS::repopulate`: dedup the incoming names, drop `.tagfs`, reconcile
the existing bindings, then `add_file` every genuinely new name. -/
def TagFS.repopulate (st : TagFS) (input : List String) : TagFS :=
  let names := input.dedup.filter (fun n => !(n == tagfsName))
  let r := TagFS.repopGo st.files st.tag_content names
  let st' := { st with files := r.1, tag_content := r.2.1 }
  r.2.2.foldl (fun s n => (s.add_file n).2) st'

/-! ## Protocol adapter operations -/

/-- The per-tag test of `lookup`'s membership check:
`tag_content.get(&tag).map(|set| set.contains(&file)).unwrap_or(false)`. -/
def tagHasFile (st : TagFS) (file : Nat) (tg : Nat) : Bool :=
  match lookupAssoc st.tag_content tg with
  | some s => s.contains file
  | none => false

/-- `Filesystem::lookup` for `TagFS`.  `backing` is the backing store's
`get_metadata`, as an association list (absence = I/O failure). -/
def TagFS.lookup (backing : List (String × FileAttr)) (st : TagFS) (parent : Nat)
    (name : String) : EntryReply × TagFS :=
  if Ino.is_file parent then (.error errNotDir, st)
  else
    match st.tree.lookup (Ino.tag parent) with
    | none => (.error errNoEnt, st)
    | some pid =>
      match st.get_fnb_by_name name with
      | some file =>
        let path := TagTree.collect_tags st.tree.nodes pid
        if path.all (tagHasFile st file) then
          match lookupAssoc backing name with
          | some fa => (.entry { fa with ino := Ino.from_parts file (Ino.tag parent) }, st)
          | none => (.error errInOut, st)
        else (.error errNoEnt, st)
      | none =>
        match st.get_tnb_by_name name with
        | none => (.error errNoEnt, st)
        | some tn =>
          let (cid, tree') := st.tree.add_to_if_needed pid tn
          (.entry (create_folder_attrs (Ino.from_tag cid)), { st with tree := tree' })

/-- `Filesystem::mkdir` for `TagFS` (the parent inode is ignored by the code). -/
def TagFS.mkdir (st : TagFS) (_parent : Nat) (name : String) : EntryReply × TagFS :=
  if name == trashName then (.error errNotSup, st)
  else
    let (tnb, st') := st.create_tag name
    (.entry (create_folder_attrs (Ino.from_tag tnb)), st')

/-- `remove_file_from` folded over a tag list (the `for tag in tags` loops). -/
def TagFS.removeFromAll (st : TagFS) (file : Nat) : List Nat → Option TagFS
  | [] => some st
  | tg :: rest =>
    match st.remove_file_from file tg with
    | none => none
    | some st' => TagFS.removeFromAll st' file rest

/-- `add_file_to` folded over a tag list. -/
def TagFS.addToAll (st : TagFS) (file : Nat) : List Nat → Option TagFS
  | [] => some st
  | tg :: rest =>
    match st.add_file_to file tg with
    | none => none
    | some st' => TagFS.addToAll st' file rest

/-- `Filesystem::unlink` for `TagFS`. -/
def TagFS.unlink (st : TagFS) (parent : Nat) (name : String) :
    Option (EmptyReply × TagFS) :=
  match st.tree.lookup (Ino.tag parent) with
  | none => some (.error errNoEnt, st)
  | some pid =>
    match st.get_fnb_by_name name with
    | none => some (.error errNoEnt, st)
    | some file =>
      let tags := TagTree.collect_tags st.tree.nodes pid
      match st.removeFromAll file tags with
      | none => none
      | some st' => some (.ok, st')

/-- `Filesystem::rename` for `TagFS`. -/
def TagFS.rename (st : TagFS) (parent : Nat) (name : String) (newparent : Nat)
    (newname : String) (_flags : Nat) : Option (EmptyReply × TagFS) :=
  match st.get_tnb_by_name name with
  | some tg => some (.ok, { st with tags := bimapInsert st.tags tg newname })
  | none =>
    if name == newname && !(parent == newparent) then
      match st.get_fnb_by_name name with
      | none => some (.error errNoEnt, st)
      | some file =>
        match st.tree.lookup (Ino.tag parent) with
        | none => some (.error errNoEnt, st)
        | some pid =>
          match st.tree.lookup (Ino.tag newparent) with
          | none => some (.error errNoEnt, st)
          | some npid =>
            let oldtags := TagTree.collect_tags st.tree.nodes pid
            let newtags := TagTree.collect_tags st.tree.nodes npid
            match st.removeFromAll file oldtags with
            | none => none
            | some st1 =>
              match st1.addToAll file newtags with
              | none => none
              | some st2 => some (.ok, st2)
    else some (.error errNotSup, st)

/-! ## `Filesystem::readdir` for `TagFS`

The kernel reply buffer is modelled as unbounded (`reply.add` never reports
full), so the produced list is the full synthesized suffix for the given
offset.  `get_fnm_by_number(..).expect(..)` panics are `none`. -/

def dotName : String := "."

def dotdotName : String := ".."

/-- The directory-entries loop: materialize each listed tag under `dir` via
`add_to_if_needed` and emit its entry, threading the tree and the `idx`
counter. -/
def emitTagsGo (tree : TagTree) (pid : Nat) :
    List (Nat × String) → Nat → (List DirEntry × TagTree)
  | [], _ => ([], tree)
  | (tn, name) :: rest, idx =>
    let (cid, tree') := tree.add_to_if_needed pid tn
    let (es, tree'') := emitTagsGo tree' pid rest (idx + 1)
    (⟨Ino.from_tag cid, idx, .directory, name⟩ :: es, tree'')

/-- The file-entries loop. -/
def emitFiles (st : TagFS) : List Nat → Nat → Nat → Option (List DirEntry)
  | [], _, _ => some []
  | f :: rest, tagPart, idx =>
    match st.get_fnm_by_number f with
    | none => none
    | some name =>
      match emitFiles st rest tagPart (idx + 1) with
      | none => none
      | some es => some (⟨Ino.from_parts f tagPart, idx, .regularFile, name⟩ :: es)

def TagFS.readdir (st : TagFS) (ino : Nat) (offset : Nat) :
    Option (DirReply × TagFS) :=
  if Ino.is_file ino then some (.error errNotDir, st)
  else
    match st.tree.lookup (Ino.tag ino) with
    | none => some (.error errNoEnt, st)
    | some pid =>
      let idx := offset + 3
      let dots :=
        if offset ≥ 2 then (([] : List DirEntry), offset - 2)
        else ([⟨ino, 1, FTy.directory, dotName⟩,
               ⟨Ino.from_tag pid, 2, FTy.directory, dotdotName⟩], offset)
      let offset1 := dots.2
      let used_tags := TagTree.collect_tags st.tree.nodes pid
      let tags1 := st.tags.filter (fun p => !(used_tags.contains p.1))
      let to_drain := min tags1.length offset1
      let tags2 := tags1.drop to_drain
      let offset2 := offset1 - to_drain
      let dirs :=
        if offset2 == 0 then emitTagsGo st.tree pid tags2 idx else ([], st.tree)
      let idx2 := idx + dirs.1.length
      match st.calculate_intersection used_tags with
      | none => none
      | some files0 =>
        let to_drain2 := min files0.length offset2
        let files1 := files0.drop to_drain2
        let offset3 := offset2 - to_drain2
        match (if offset3 == 0 then emitFiles st files1 (Ino.tag ino) idx2
               else some []) with
        | none => none
        | some fileEntries =>
          some (.entries (dots.1 ++ dirs.1 ++ fileEntries), { st with tree := dirs.2 })

/-! ## Backing store read (`ExternalFS::read` in src/fs/backing.rs) -/

/-- `ExternalFS::read`: clamp the requested size with
`min(size, file_size.saturating_sub(offset))`, then read exactly that many
bytes at `offset` (which always succeeds for the clamped size). -/
def ExternalFS.read (contents : List Nat) (offset size : Nat) : List Nat :=
  let size' := min size (contents.length - offset)
  (contents.drop offset).take size'

/-! ## Claim C8: backing read clamps its size and never underflows -/

/-- C8: `read` returns a buffer of length `size` clamped to
`max(0, file_size - offset)` (truncated subtraction on `Nat` is exactly the
saturating subtraction of the code), and a read at or past end of file
returns the empty buffer. -/
theorem external_read_clamps (c : List Nat) (o s : Nat) :
    (ExternalFS.read c o s).length = min s (c.length - o) ∧
    (c.length ≤ o → ExternalFS.read c o s = []) := by
  constructor
  · unfold ExternalFS.read
    simp only [List.length_take, List.length_drop]
    omega
  · intro h
    unfold ExternalFS.read
    have h0 : c.length - o = 0 := by omega
    simp [h0]

/-- Witness for C8: a read past end of file yields the empty buffer. -/
theorem external_read_clamps_witness : ExternalFS.read [10, 20, 30] 5 2 = [] :=
  (external_read_clamps [10, 20, 30] 5 2).2 (by decide)

/-! ## Claim C10: unlink depends on the parent only through its tag part -/

def nameA : String := "apple"

/-- C10: `unlink`'s reply and resulting state depend on the parent inode only
through `tag_part(parent)`, and `unlink` never replies `ENOTDIR`. -/
theorem unlink_parent_tag_only (st : TagFS) (p1 p2 : Nat) (name : String)
    (h : Ino.tag p1 = Ino.tag p2) :
    st.unlink p1 name = st.unlink p2 name ∧
    ∀ st' : TagFS, st.unlink p1 name ≠ some (.error errNotDir, st') := by
  constructor
  · unfold TagFS.unlink
    rw [h]
  · intro st'
    unfold TagFS.unlink
    cases hl : st.tree.lookup (Ino.tag p1) with
    | none => simp [errNoEnt, errNotDir]
    | some pid =>
      cases hf : st.get_fnb_by_name name with
      | none => simp [errNoEnt, errNotDir]
      | some file =>
        cases hr : st.removeFromAll file (TagTree.collect_tags st.tree.nodes pid) with
        | none => simp [hr]
        | some st2 => simp [hr]

/-- Witness for C10: parent inodes `1` and `2^32 + 1` share tag part `1` and
produce identical unlink results on the fresh state. -/
theorem unlink_parent_tag_only_witness :
    TagFS.new.unlink 1 nameA = TagFS.new.unlink (2 ^ 32 + 1) nameA ∧
    TagFS.new.unlink 1 nameA ≠ some (.error errNotDir, TagFS.new) :=
  ⟨(unlink_parent_tag_only TagFS.new 1 (2 ^ 32 + 1) nameA (by decide)).1,
   (unlink_parent_tag_only TagFS.new 1 (2 ^ 32 + 1) nameA (by decide)).2 TagFS.new⟩

/-! ## Tree lemmas and Claim C6: tag-node identity -/

/-- Well-formedness of the arena: every `ino_part` key is at most the
counter (the counter issued them all), and every child reference resolves. -/
def TagTree.WF (t : TagTree) : Prop :=
  (∀ p ∈ t.nodes, p.1 ≤ t.counter) ∧
  (∀ p ∈ t.nodes, ∀ c ∈ p.2.children, ∃ q ∈ t.nodes, q.1 = c)

instance (t : TagTree) : Decidable t.WF := by
  unfold TagTree.WF
  infer_instance

theorem lookupAssoc_exists {α : Type} (l : List (Nat × α)) (k : Nat) (v : α)
    (h : lookupAssoc l k = some v) : ∃ q ∈ l, q.1 = k ∧ q.2 = v := by
  unfold lookupAssoc at h
  cases hf : l.find? (fun p => p.1 == k) with
  | none => rw [hf] at h; simp at h
  | some q =>
    rw [hf] at h
    refine ⟨q, List.mem_of_find?_eq_some hf, ?_, ?_⟩
    · have := List.find?_some hf
      simpa using this
    · simpa using h

theorem lookupAssoc_isSome {α : Type} (l : List (Nat × α)) (k : Nat)
    (h : ∃ q ∈ l, q.1 = k) : ∃ v, lookupAssoc l k = some v := by
  obtain ⟨q, hq, hk⟩ := h
  unfold lookupAssoc
  cases hf : l.find? (fun p => p.1 == k) with
  | some p => exact ⟨p.2, by simp⟩
  | none =>
    rw [List.find?_eq_none] at hf
    exact absurd (by simp [hk]) (hf q hq)

/-- Effect of `add_to` on arena lookups: the fresh key maps to the new node,
any other key maps to its old node, with the new child appended when the key
is the parent. -/
theorem lookupNode_add_to (t : TagTree) (pid tg k : Nat)
    (hle : ∀ p ∈ t.nodes, p.1 ≤ t.counter) :
    lookupNode (t.add_to pid tg).2.nodes k =
      if k = t.counter + 1 then
        some { ino_part := t.counter + 1, tag := tg, parent := some pid, children := [] }
      else
        (lookupNode t.nodes k).map
          (fun n => if k = pid then { n with children := n.children ++ [t.counter + 1] }
                    else n) := by
  have hnodes : (t.add_to pid tg).2.nodes =
      ((t.nodes.map (fun p => if p.1 == pid then
          (p.1, { p.2 with children := p.2.children ++ [t.counter + 1] }) else p)).filter
        (fun p => !(p.1 == t.counter + 1))) ++
      [(t.counter + 1,
        { ino_part := t.counter + 1, tag := tg, parent := some pid, children := [] })] := rfl
  have hkey : ∀ q : Nat × TagNodeData,
      ((if q.1 == pid then
        (q.1, { q.2 with children := q.2.children ++ [t.counter + 1] }) else q) :
        Nat × TagNodeData).1 = q.1 := by
    intro q
    by_cases h : q.1 = pid <;> simp [h]
  rw [hnodes]
  unfold lookupNode lookupAssoc
  have hfil : ∀ p ∈ t.nodes.map (fun p => if p.1 == pid then
      (p.1, { p.2 with children := p.2.children ++ [t.counter + 1] }) else p),
      (!(p.1 == t.counter + 1)) = true := by
    intro p hp
    obtain ⟨q, hq, rfl⟩ := List.mem_map.mp hp
    have hqle := hle q hq
    rw [Bool.not_eq_true']
    rw [show ((if q.1 == pid then
      (q.1, { q.2 with children := q.2.children ++ [t.counter + 1] }) else q) :
      Nat × TagNodeData).1 = q.1 from hkey q]
    rw [beq_eq_false_iff_ne]
    omega
  rw [List.filter_eq_self.mpr hfil, List.find?_append, List.find?_map]
  have hcompeq : ((fun p : Nat × TagNodeData => p.1 == k) ∘ (fun p => if p.1 == pid then
      (p.1, { p.2 with children := p.2.children ++ [t.counter + 1] }) else p)) =
      (fun q : Nat × TagNodeData => q.1 == k) := by
    funext q
    simp only [Function.comp_apply]
    rw [show ((if q.1 == pid then
      (q.1, { q.2 with children := q.2.children ++ [t.counter + 1] }) else q) :
      Nat × TagNodeData).1 = q.1 from hkey q]
  rw [hcompeq]
  by_cases hk : k = t.counter + 1
  · subst hk
    have hA : t.nodes.find? (fun q : Nat × TagNodeData => q.1 == t.counter + 1) = none := by
      rw [List.find?_eq_none]
      intro q hq
      have := hle q hq
      simp only [beq_iff_eq]
      omega
    rw [hA]
    simp
  · have hB : List.find? (fun p : Nat × TagNodeData => p.1 == k)
        [(t.counter + 1,
          { ino_part := t.counter + 1, tag := tg, parent := some pid, children := [] })] =
        none := by
      rw [List.find?_eq_none]
      intro q hq
      rw [List.mem_singleton] at hq
      subst hq
      simp only [beq_iff_eq]
      omega
    rw [hB]
    cases hf : t.nodes.find? (fun p : Nat × TagNodeData => p.1 == k) with
    | none => simp [hk]
    | some q =>
      have hqk : q.1 = k := by simpa using List.find?_some hf
      by_cases hp : k = pid
      · subst hp
        simp [hk, hqk]
      · simp [hqk, hp]
        rw [if_neg hk]

theorem find?_congr_mem {α : Type} (l : List α) (p q : α → Bool)
    (h : ∀ a ∈ l, p a = q a) : l.find? p = l.find? q := by
  induction l with
  | nil => rfl
  | cons a as ih =>
    rw [List.find?_cons, List.find?_cons, h a (List.mem_cons_self a as)]
    cases hqa : q a
    · simp only [hqa]
      exact ih (fun x hx => h x (List.mem_cons_of_mem a hx))
    · simp only [hqa]

/-- `add_to` does not change the outcome of `childPred` for any previously
valid child id. -/
theorem childPred_add_to (t : TagTree) (pid tg tg2 cid : Nat)
    (hle : ∀ p ∈ t.nodes, p.1 ≤ t.counter)
    (hcid : cid ≤ t.counter) :
    childPred (t.add_to pid tg).2.nodes tg2 cid = childPred t.nodes tg2 cid := by
  unfold childPred
  rw [lookupNode_add_to t pid tg cid hle, if_neg (by omega)]
  cases hc : lookupNode t.nodes cid with
  | none => simp
  | some cn =>
    by_cases h : cid = pid <;> simp [h]

/-- C6: `add_to_if_needed(P, t)` called twice in succession returns the same
node (hence the same `ino_part`) both times, and the second call creates no
new node: the pair (returned node, tree) of the second call equals that of
the first. -/
theorem add_to_if_needed_idem (t : TagTree) (pid tg : Nat) (pn : TagNodeData)
    (hWF : t.WF) (hp : lookupNode t.nodes pid = some pn) :
    (t.add_to_if_needed pid tg).2.add_to_if_needed pid tg =
      t.add_to_if_needed pid tg := by
  obtain ⟨hle, hclosed⟩ := hWF
  obtain ⟨qp, hqp, hqpk, hqpv⟩ := lookupAssoc_exists t.nodes pid pn hp
  have hpid_le : pid ≤ t.counter := hqpk ▸ hle qp hqp
  cases hfc : pn.find_child t.nodes tg with
  | some c =>
    unfold TagTree.add_to_if_needed
    simp [hp, hfc]
  | none =>
    unfold TagTree.add_to_if_needed
    simp only [hp, hfc]
    have h1 : lookupNode (t.add_to pid tg).2.nodes pid =
        some { pn with children := pn.children ++ [t.counter + 1] } := by
      rw [lookupNode_add_to t pid tg pid hle, if_neg (by omega), hp]
      simp
    have h2 : TagNodeData.find_child { pn with children := pn.children ++ [t.counter + 1] }
        (t.add_to pid tg).2.nodes tg = some (t.counter + 1) := by
      unfold TagNodeData.find_child
      simp only [List.find?_append]
      have hA : pn.children.find? (childPred (t.add_to pid tg).2.nodes tg) = none := by
        rw [find?_congr_mem pn.children _ (childPred t.nodes tg) ?_]
        · exact hfc
        · intro cid hcid
          obtain ⟨q, hq, hqck⟩ := hclosed qp hqp cid (by rw [hqpv]; exact hcid)
          exact childPred_add_to t pid tg tg cid hle (hqck ▸ hle q hq)
      rw [hA]
      have hnew : lookupNode (t.add_to pid tg).2.nodes (t.counter + 1) =
          some { ino_part := t.counter + 1, tag := tg, parent := some pid, children := [] } := by
        rw [lookupNode_add_to t pid tg (t.counter + 1) hle, if_pos rfl]
      simp [childPred, hnew]
    simp only [h1, h2]
    rfl

/-- Witness for C6: the fresh tree, its root, a new tag number. -/
theorem add_to_if_needed_idem_witness :
    (TagTree.new.add_to_if_needed 1 5).2.add_to_if_needed 1 5 =
      TagTree.new.add_to_if_needed 1 5 :=
  add_to_if_needed_idem TagTree.new 1 5
    { ino_part := 1, tag := 1, parent := none, children := [] }
    (by decide) (by decide)

/-! ## Claim C2: lookup of a filename under a tag directory -/

theorem all_tagHasFile_iff (st : TagFS) (chain : List Nat) (f : Nat) :
    (chain.all (tagHasFile st f) = true) ↔
    (∀ tg ∈ chain, ∃ s, lookupAssoc st.tag_content tg = some s ∧ f ∈ s) := by
  rw [List.all_eq_true]
  constructor
  · intro h tg htg
    have h2 := h tg htg
    unfold tagHasFile at h2
    cases hl : lookupAssoc st.tag_content tg with
    | none => rw [hl] at h2; simp at h2
    | some s =>
      rw [hl] at h2
      simp at h2
      exact ⟨s, rfl, h2⟩
  · intro h tg htg
    obtain ⟨s, hs, hf⟩ := h tg htg
    unfold tagHasFile
    rw [hs]
    simpa using hf

/-- C2: if the parent inode is a file inode, `lookup` replies `ENOTDIR`;
otherwise, when the parent's tag part resolves to a live tag node, `name` is
bound in `files` to `f`, and the backing metadata for `name` is available,
`lookup` replies an entry whose `ino` is `from_parts f (tag_part parent)`
exactly when `f` belongs to `tag_content[t]` for every tag `t` of the parent
node's ancestor chain (unconditionally for the empty chain), and `ENOENT`
otherwise. -/
theorem lookup_file_spec (backing : List (String × FileAttr)) (st : TagFS)
    (parent : Nat) (name : String) :
    (Ino.is_file parent = true →
      TagFS.lookup backing st parent name = (.error errNotDir, st)) ∧
    (Ino.is_file parent = false →
      ∀ pid, st.tree.lookup (Ino.tag parent) = some pid →
      ∀ f, st.get_fnb_by_name name = some f →
      ∀ fa, lookupAssoc backing name = some fa →
        ((∀ tg ∈ TagTree.collect_tags st.tree.nodes pid,
            ∃ s, lookupAssoc st.tag_content tg = some s ∧ f ∈ s) →
          TagFS.lookup backing st parent name =
            (.entry { fa with ino := Ino.from_parts f (Ino.tag parent) }, st)) ∧
        ((¬ ∀ tg ∈ TagTree.collect_tags st.tree.nodes pid,
            ∃ s, lookupAssoc st.tag_content tg = some s ∧ f ∈ s) →
          TagFS.lookup backing st parent name = (.error errNoEnt, st))) := by
  constructor
  · intro h
    unfold TagFS.lookup
    rw [if_pos h]
  · intro h pid hpid f hf fa hfa
    constructor
    · intro hcond
      unfold TagFS.lookup
      rw [h]
      simp only [Bool.false_eq_true, if_false, hpid, hf, hfa]
      rw [if_pos ((all_tagHasFile_iff st (TagTree.collect_tags st.tree.nodes pid) f).mpr hcond)]
    · intro hcond
      unfold TagFS.lookup
      rw [h]
      simp only [Bool.false_eq_true, if_false, hpid, hf]
      rw [if_neg (fun hc =>
        hcond ((all_tagHasFile_iff st (TagTree.collect_tags st.tree.nodes pid) f).mp hc))]

def faA : FileAttr :=
  { ino := 99, size := 10, blocks := 1, kind := .regularFile, perm := 420,
    nlink := 1, uid := 1000, gid := 1000, blksize := 512 }

def stC2 : TagFS :=
  { tree := TagTree.new, tag_content := [], files := [(2, nameA)], tags := [],
    file_tally := 2 }

def backingC2 : List (String × FileAttr) := [(nameA, faA)]

/-- Witness for C2: at the root (empty ancestor chain) the bound file is
found, with the backing attributes' ino overridden. -/
theorem lookup_file_spec_witness :
    TagFS.lookup backingC2 stC2 1 nameA =
      (.entry { faA with ino := Ino.from_parts 2 (Ino.tag 1) }, stC2) :=
  ((lookup_file_spec backingC2 stC2 1 nameA).2 (by decide) 1 (by decide) 2
    (by decide) faA (by decide)).1
    (by intro tg htg; rw [show TagTree.collect_tags stC2.tree.nodes 1 = [] from rfl] at htg; cases htg)

/-! ## Claim C9: mkdir over an already-bound tag name -/

/-- In a list with `Nodup` first components, two members sharing the first
component are the same pair. -/
theorem pair_eq_of_nodup_fst {α β : Type} [DecidableEq α] [DecidableEq β]
    {l : List (α × β)} (h : (l.map Prod.fst).Nodup)
    {p q : α × β} (hp : p ∈ l) (hq : q ∈ l) (hfst : p.1 = q.1) : p = q :=
  List.inj_on_of_nodup_map h hp hq hfst

/-- C9: `mkdir(name)` over a name already bound to tag `t0` allocates the
fresh tag `t1 = counter + 1 ≠ t0`, replies with a folder entry for `t1`,
rebinds the name to `t1` with an empty `tag_content` set, leaves `t0`'s old
file set in `tag_content` untouched, and leaves the tags bijection with no
binding at all for `t0`. -/
theorem mkdir_existing_name (st : TagFS) (parent : Nat) (n : String) (t0 : Nat)
    (hbound : (t0, n) ∈ st.tags)
    (hn : ¬ n = trashName)
    (htags_le : ∀ p ∈ st.tags, p.1 ≤ st.tree.counter)
    (htc_le : ∀ p ∈ st.tag_content, p.1 ≤ st.tree.counter)
    (hnodup : (st.tags.map Prod.fst).Nodup) :
    (st.mkdir parent n).1 =
      .entry (create_folder_attrs (Ino.from_tag (st.tree.counter + 1))) ∧
    ¬ st.tree.counter + 1 = t0 ∧
    (st.tree.counter + 1, n) ∈ (st.mkdir parent n).2.tags ∧
    lookupAssoc (st.mkdir parent n).2.tag_content (st.tree.counter + 1) = some [] ∧
    lookupAssoc (st.mkdir parent n).2.tag_content t0 = lookupAssoc st.tag_content t0 ∧
    (∀ m : String, ¬ (t0, m) ∈ (st.mkdir parent n).2.tags) := by
  have ht0_le : t0 ≤ st.tree.counter := htags_le (t0, n) hbound
  have hname : (n == trashName) = false := by
    rw [beq_eq_false_iff_ne]
    exact hn
  have hmk : st.mkdir parent n =
      (.entry (create_folder_attrs (Ino.from_tag (st.tree.counter + 1))),
       { st with tree := (st.tree.add_to st.tree.root (st.tree.counter + 1)).2
                 tag_content := indexInsert st.tag_content (st.tree.counter + 1) []
                 tags := bimapInsert st.tags (st.tree.counter + 1) n }) := by
    unfold TagFS.mkdir TagFS.create_tag TagTree.create_new
    rw [hname]
    simp
  rw [hmk]
  refine ⟨rfl, by omega, ?_, ?_, ?_, ?_⟩
  · simp [bimapInsert]
  · unfold indexInsert
    have hany : (st.tag_content.any (fun p => p.1 == st.tree.counter + 1)) = false := by
      rw [List.any_eq_false]
      intro p hp
      have := htc_le p hp
      simp only [beq_iff_eq]
      omega
    rw [hany]
    simp only [Bool.false_eq_true, if_false]
    unfold lookupAssoc
    rw [List.find?_append]
    have hnone : st.tag_content.find? (fun p => p.1 == st.tree.counter + 1) = none := by
      rw [List.find?_eq_none]
      intro p hp
      have := htc_le p hp
      simp only [beq_iff_eq]
      omega
    rw [hnone]
    simp
  · unfold indexInsert
    have hany : (st.tag_content.any (fun p => p.1 == st.tree.counter + 1)) = false := by
      rw [List.any_eq_false]
      intro p hp
      have := htc_le p hp
      simp only [beq_iff_eq]
      omega
    rw [hany]
    simp only [Bool.false_eq_true, if_false]
    unfold lookupAssoc
    rw [List.find?_append]
    cases hf : st.tag_content.find? (fun p => p.1 == t0) with
    | some q => simp
    | none =>
      simp only [Option.none_or, Option.map_none']
      have : ((st.tree.counter + 1 : Nat) == t0) = false := by
        rw [beq_eq_false_iff_ne]
        omega
      simp [List.find?_cons, this]
  · intro m hm
    unfold bimapInsert at hm
    rw [List.mem_append] at hm
    cases hm with
    | inl hm =>
      rw [List.mem_filter] at hm
      obtain ⟨hmem, hpred⟩ := hm
      have heq : (t0, m) = (t0, n) := pair_eq_of_nodup_fst hnodup hmem hbound rfl
      have : m = n := by injection heq
      subst this
      simp at hpred
    | inr hm =>
      rw [List.mem_singleton] at hm
      have : t0 = st.tree.counter + 1 := by injection hm
      omega

def nameRed : String := "red"

def stC9 : TagFS :=
  { tree := (TagTree.new.add_to 1 2).2, tag_content := [(2, [7])],
    files := [], tags := [(2, nameRed)], file_tally := 1 }

/-- Witness for C9: re-mkdir of a bound name on a small concrete state. -/
theorem mkdir_existing_name_witness :
    (stC9.mkdir 1 nameRed).1 =
      .entry (create_folder_attrs (Ino.from_tag (stC9.tree.counter + 1))) ∧
    ¬ stC9.tree.counter + 1 = 2 ∧
    (stC9.tree.counter + 1, nameRed) ∈ (stC9.mkdir 1 nameRed).2.tags ∧
    lookupAssoc (stC9.mkdir 1 nameRed).2.tag_content (stC9.tree.counter + 1) = some [] ∧
    lookupAssoc (stC9.mkdir 1 nameRed).2.tag_content 2 = lookupAssoc stC9.tag_content 2 ∧
    (∀ m : String, ¬ (2, m) ∈ (stC9.mkdir 1 nameRed).2.tags) :=
  mkdir_existing_name stC9 1 nameRed 2 (by decide) (by decide) (by decide)
    (by decide) (by decide)

/-! ## Claim C7: rename of a tag name -/

theorem mem_bimapInsert {κ μ : Type} [DecidableEq κ] [DecidableEq μ]
    (l : List (κ × μ)) (k : κ) (v : μ) (p : κ × μ) :
    p ∈ bimapInsert l k v ↔
      (p = (k, v) ∨ (p ∈ l ∧ ¬ p.1 = k ∧ ¬ p.2 = v)) := by
  unfold bimapInsert
  simp only [List.mem_append, List.mem_filter, List.mem_singleton,
    Bool.and_eq_true, Bool.not_eq_true', beq_eq_false_iff_ne, ne_eq]
  tauto

def nameB : String := "bee"

def stC7 : TagFS :=
  { tree := TagTree.new, tag_content := [(1, []), (2, [])], files := [],
    tags := [(1, nameA), (2, nameB)], file_tally := 1 }

/-- Counterexample to C7 as stated: renaming the tag bound to `nameA` into
`nameB` does not only change tag 1's binding — it also silently removes the
binding `(2, nameB)` of the other tag (the `BiMap` overwriting insert), even
though that tag is distinct from the renamed one. -/
theorem rename_tag_cex :
    stC7.get_tnb_by_name nameA = some 1 ∧
    (2, nameB) ∈ stC7.tags ∧
    stC7.rename 1 nameA 1 nameB 0 =
      some (.ok, { stC7 with tags := [(1, nameB)] }) ∧
    ¬ (2, nameB) ∈ [((1 : Nat), nameB)] := by
  refine ⟨by decide, by decide, by decide, by decide⟩

/-- C7 (amended): when `name` is bound to tag `t`, `rename` replies OK and
replaces `tags` by its overwriting insert of `(t, newname)` — which rebinds
`t` and additionally removes any pair colliding with `newname` — leaving
`tag_content`, `files`, `file_tally` and the tag tree unchanged, regardless
of the `parent`, `newparent` and `flags` arguments. -/
theorem rename_tag_branch (st : TagFS) (parent newparent flags : Nat)
    (name newname : String) (t : Nat)
    (h : st.get_tnb_by_name name = some t) :
    st.rename parent name newparent newname flags =
      some (.ok, { st with tags := bimapInsert st.tags t newname }) ∧
    (∀ p : Nat × String, p ∈ bimapInsert st.tags t newname ↔
      (p = (t, newname) ∨ (p ∈ st.tags ∧ ¬ p.1 = t ∧ ¬ p.2 = newname))) := by
  constructor
  · unfold TagFS.rename
    simp only [h]
  · intro p
    exact mem_bimapInsert st.tags t newname p

/-- Witness for C7's amended theorem, with distinct parent arguments. -/
theorem rename_tag_branch_witness :
    stC7.rename 5 nameA 9 nameB 0 =
      some (.ok, { stC7 with tags := bimapInsert stC7.tags 1 nameB }) ∧
    ((2, nameB) ∈ bimapInsert stC7.tags 1 nameB ↔
      ((2, nameB) = ((1 : Nat), nameB) ∨
        ((2, nameB) ∈ stC7.tags ∧ ¬ ((2 : Nat), nameB).1 = 1 ∧
          ¬ ((2 : Nat), nameB).2 = nameB))) :=
  ⟨(rename_tag_branch stC7 5 9 0 nameA nameB 1 (by decide)).1,
   (rename_tag_branch stC7 5 9 0 nameA nameB 1 (by decide)).2 (2, nameB)⟩

/-! ## Claim C1: calculate_intersection -/

def stC1 : TagFS :=
  { tree := TagTree.new, tag_content := [(1, [7])], files := [], tags := [],
    file_tally := 1 }

/-- Counterexample to C1 as stated: on a non-empty tag list whose tags are
all absent from `tag_content`, `calculate_intersection` panics
(`split_first().unwrap()` on an empty vector; `none` in the embedding)
instead of returning the empty set; and a listed tag that is absent while
another is present is ignored rather than treated as an empty set, so the
result is not the empty set. -/
theorem calculate_intersection_cex :
    TagFS.new.calculate_intersection [5] = none ∧
    stC1.calculate_intersection [1, 2] = some [7] ∧
    ¬ stC1.calculate_intersection [1, 2] = some [] := by
  refine ⟨by decide, by decide, by decide⟩

theorem mem_foldl_filter (rest : List (List Nat)) (start : List Nat) (f : Nat) :
    f ∈ rest.foldl (fun acc s => acc.filter (fun x => s.contains x)) start ↔
    (f ∈ start ∧ ∀ s ∈ rest, f ∈ s) := by
  induction rest generalizing start with
  | nil => simp
  | cons s ss ih =>
    rw [List.foldl_cons, ih]
    simp only [List.mem_filter, List.mem_cons]
    constructor
    · rintro ⟨⟨h1, h2⟩, h3⟩
      refine ⟨h1, ?_⟩
      intro s' hs'
      cases hs' with
      | inl h => subst h; simpa using h2
      | inr h => exact h3 s' h
    · rintro ⟨h1, h2⟩
      refine ⟨⟨h1, ?_⟩, ?_⟩
      · simpa using h2 s (Or.inl rfl)
      · intro s' hs'
        exact h2 s' (Or.inr hs')

/-- C1 (amended): with an empty tag list, `calculate_intersection` returns
the universe (every file number in `files`).  With a non-empty list: if every
listed tag is missing from `tag_content` the call panics (`none`); if at
least one listed tag is present it returns a set whose members are exactly
the file numbers lying in the set of every *present* listed tag — missing
listed tags are ignored, not treated as empty sets. -/
theorem calculate_intersection_spec (st : TagFS) (path : List Nat) :
    (path = [] → st.calculate_intersection path = some (st.files.map Prod.fst)) ∧
    (¬ path = [] →
      ((∀ p ∈ st.tag_content, ¬ p.1 ∈ path) →
        st.calculate_intersection path = none) ∧
      ((∃ p ∈ st.tag_content, p.1 ∈ path) →
        ∃ r, st.calculate_intersection path = some r) ∧
      (∀ r, st.calculate_intersection path = some r →
        ∀ f, (f ∈ r ↔ ∀ p ∈ st.tag_content, p.1 ∈ path → f ∈ p.2))) := by
  refine ⟨?_, ?_⟩
  · intro h
    subst h
    unfold TagFS.calculate_intersection
    simp
  · intro hne
    have hemp : path.isEmpty = false := by
      cases path with
      | nil => exact absurd rfl hne
      | cons a as => rfl
    refine ⟨?_, ?_, ?_⟩
    · intro hall
      unfold TagFS.calculate_intersection
      rw [hemp]
      have hfil : st.tag_content.filter (fun p => path.contains p.1) = [] := by
        rw [List.filter_eq_nil_iff]
        intro p hp
        have := hall p hp
        simpa using this
      simp only [Bool.false_eq_true, if_false]
      rw [hfil]
      rfl
    · intro hex
      obtain ⟨p, hp, hpin⟩ := hex
      unfold TagFS.calculate_intersection
      rw [hemp]
      simp only [Bool.false_eq_true, if_false]
      cases hsets : (st.tag_content.filter (fun q => path.contains q.1)).map
          (fun q => q.2) with
      | nil =>
        rw [List.map_eq_nil_iff] at hsets
        rw [List.filter_eq_nil_iff] at hsets
        have := hsets p hp
        simp [hpin] at this
      | cons s1 srest =>
        exact ⟨_, rfl⟩
    · intro r hr f
      unfold TagFS.calculate_intersection at hr
      rw [hemp, if_neg (show ¬ (false = true) by decide)] at hr
      cases hsets : (st.tag_content.filter (fun q => path.contains q.1)).map
          (fun q => q.2) with
      | nil =>
        rw [hsets] at hr
        simp at hr
      | cons s1 srest =>
        rw [hsets] at hr
        have hr2 : (srest.foldl (fun acc s => acc.filter (fun x => s.contains x)) s1) = r := by
          injection hr
        subst hr2
        rw [mem_foldl_filter]
        have hmem : ∀ s, s ∈ s1 :: srest ↔
            ∃ p ∈ st.tag_content, path.contains p.1 = true ∧ p.2 = s := by
          intro s
          rw [← hsets]
          simp only [List.mem_map, List.mem_filter]
          constructor
          · rintro ⟨q, ⟨hq, hqin⟩, rfl⟩
            exact ⟨q, hq, hqin, rfl⟩
          · rintro ⟨q, hq, hqin, rfl⟩
            exact ⟨q, ⟨hq, hqin⟩, rfl⟩
        constructor
        · rintro ⟨hf1, hfrest⟩ p hp hpin
          have hps : p.2 ∈ s1 :: srest := by
            rw [hmem]
            exact ⟨p, hp, by simpa using hpin, rfl⟩
          cases List.mem_cons.mp hps with
          | inl h => rw [h]; exact hf1
          | inr h => exact hfrest p.2 h
        · intro hall
          have hs1 : ∃ p ∈ st.tag_content, path.contains p.1 = true ∧ p.2 = s1 :=
            (hmem s1).mp (List.mem_cons_self s1 srest)
          obtain ⟨p, hp, hpin, hps⟩ := hs1
          refine ⟨hps ▸ hall p hp (by simpa using hpin), ?_⟩
          intro s hs
          obtain ⟨q, hq, hqin, hqs⟩ := (hmem s).mp (List.mem_cons_of_mem s1 hs)
          exact hqs ▸ hall q hq (by simpa using hqin)

/-! ## Claim C3: readdir offset accounting -/

def stC3 : TagFS :=
  { tree := (TagTree.new.add_to 1 2).2, tag_content := [(2, [])], files := [],
    tags := [(2, nameRed)], file_tally := 1 }

/-- C3 (evaluation at the failing inputs): on a root directory whose full
synthesized list is `[".", "..", "red/"]`, resuming at offset 2 emits the
`red` entry with `next_offset` 5 (the code starts `idx` at `offset + 3`
without discounting the skipped `.` and `..`), not the sequential
`offset + 1 = 3` the specification requires; and at offset 1 the code
re-emits both `.` and `..` and skips the `red` entry entirely, instead of
skipping only the first entry. -/
theorem readdir_offset_bug :
    stC3.readdir 1 2 =
      some (.entries [⟨2, 5, .directory, nameRed⟩], stC3) ∧
    ¬ stC3.readdir 1 2 =
      some (.entries [⟨2, 3, .directory, nameRed⟩], stC3) ∧
    stC3.readdir 1 1 =
      some (.entries [⟨1, 1, .directory, dotName⟩,
                      ⟨1, 2, .directory, dotdotName⟩], stC3) := by
  refine ⟨by decide, by decide, by decide⟩

/-! ## Claim C4: repopulate (re-index reconciliation) -/

theorem contains_eq_decide_mem {α : Type} [DecidableEq α] (l : List α) (a : α) :
    l.contains a = decide (a ∈ l) := by
  simp [List.contains]

theorem contains_erase_of_ne {α : Type} [DecidableEq α] (l : List α) (a b : α)
    (h : ¬ a = b) : (l.erase b).contains a = l.contains a := by
  rw [contains_eq_decide_mem, contains_eq_decide_mem]
  simp [List.mem_erase_of_ne h]

/-- The retained bindings of the reconciliation loop are exactly the old
bindings whose name is in the incoming name set. -/
theorem repopGo_files (files : List (Nat × String)) (tc : List (Nat × List Nat))
    (rem : List String) (hnd : (files.map Prod.snd).Nodup) :
    (TagFS.repopGo files tc rem).1 = files.filter (fun p => rem.contains p.2) := by
  induction files generalizing tc rem with
  | nil => rfl
  | cons p ps ih =>
    rw [List.map_cons, List.nodup_cons] at hnd
    obtain ⟨hp2, hnd'⟩ := hnd
    simp only [TagFS.repopGo]
    by_cases h : rem.contains p.2 = true
    · rw [if_pos h]
      simp only []
      rw [ih tc (rem.erase p.2) hnd']
      have hcong : List.filter (fun q : Nat × String => (rem.erase p.2).contains q.2) ps =
          List.filter (fun q : Nat × String => rem.contains q.2) ps :=
        List.filter_congr (fun q hq => contains_erase_of_ne rem q.2 p.2
          (fun he => hp2 (he ▸ List.mem_map_of_mem Prod.snd hq)))
      rw [hcong]
      exact (@List.filter_cons_of_pos (Nat × String)
        (fun q => rem.contains q.2) p ps h).symm
    · rw [if_neg h]
      rw [ih _ rem hnd']
      exact (@List.filter_cons_of_neg (Nat × String)
        (fun q => rem.contains q.2) p ps h).symm

/-- The names left over by the reconciliation loop are the incoming names
that match no existing binding. -/
theorem repopGo_rem (files : List (Nat × String)) (tc : List (Nat × List Nat))
    (rem : List String) (hrnd : rem.Nodup) (hnd : (files.map Prod.snd).Nodup) :
    (TagFS.repopGo files tc rem).2.2 =
      rem.filter (fun n => !((files.map Prod.snd).contains n)) := by
  induction files generalizing tc rem with
  | nil => simp [TagFS.repopGo]
  | cons p ps ih =>
    rw [List.map_cons, List.nodup_cons] at hnd
    obtain ⟨hp2, hnd'⟩ := hnd
    simp only [TagFS.repopGo]
    by_cases h : rem.contains p.2 = true
    · rw [if_pos h]
      simp only []
      rw [ih tc (rem.erase p.2) (hrnd.erase p.2) hnd']
      rw [List.Nodup.erase_eq_filter hrnd, List.filter_filter]
      apply List.filter_congr
      intro n hn
      simp only [List.map_cons, List.contains_cons]
      cases h1 : (n == p.2) <;> cases h2 : (ps.map Prod.snd).contains n <;>
        simp [h1, h2] <;> simp_all
    · rw [if_neg h]
      rw [ih _ rem hrnd hnd']
      apply List.filter_congr
      intro n hn
      simp only [List.map_cons, List.contains_cons]
      have hne : (n == p.2) = false := by
        rw [beq_eq_false_iff_ne]
        intro he
        rw [contains_eq_decide_mem] at h
        exact h (by simp [he ▸ hn])
      rw [hne]
      simp

/-- The `tag_content` produced by the reconciliation loop: every set is the
old set minus the file numbers of the dropped bindings. -/
theorem repopGo_tc (files : List (Nat × String)) (tc : List (Nat × List Nat))
    (rem : List String) (hnd : (files.map Prod.snd).Nodup) :
    (TagFS.repopGo files tc rem).2.1 =
      tc.map (fun q => (q.1, q.2.filter (fun x =>
        !(((files.filter (fun p => !(rem.contains p.2))).map Prod.fst).contains x)))) := by
  induction files generalizing tc rem with
  | nil =>
    simp only [TagFS.repopGo, List.filter_nil, List.map_nil]
    have hq : ∀ q ∈ tc, (q.1, q.2.filter (fun x => !(([] : List Nat).contains x))) = q := by
      intro q hq
      simp
    rw [List.map_congr_left hq]
    simp
  | cons p ps ih =>
    rw [List.map_cons, List.nodup_cons] at hnd
    obtain ⟨hp2, hnd'⟩ := hnd
    simp only [TagFS.repopGo]
    by_cases h : rem.contains p.2 = true
    · rw [if_pos h]
      simp only []
      rw [ih tc (rem.erase p.2) hnd']
      have hfiles : ps.filter (fun q => !((rem.erase p.2).contains q.2)) =
          ps.filter (fun q => !(rem.contains q.2)) :=
        List.filter_congr (fun q hq => by
          rw [contains_erase_of_ne rem q.2 p.2
            (fun he => hp2 (he ▸ List.mem_map_of_mem Prod.snd hq))])
      rw [hfiles]
      have hcons : List.filter (fun q : Nat × String => !(rem.contains q.2)) (p :: ps) =
          ps.filter (fun q => !(rem.contains q.2)) :=
        @List.filter_cons_of_neg (Nat × String)
          (fun q => !(rem.contains q.2)) p ps
          (by rw [contains_eq_decide_mem] at h; simp at h; simp [h])
      rw [hcons]
    · rw [if_neg h]
      rw [ih _ rem hnd', List.map_map]
      have hcons : List.filter (fun q : Nat × String => !(rem.contains q.2)) (p :: ps) =
          p :: ps.filter (fun q => !(rem.contains q.2)) :=
        @List.filter_cons_of_pos (Nat × String)
          (fun q => !(rem.contains q.2)) p ps
          (by simp at h; simp [h])
      rw [hcons]
      apply List.map_congr_left
      intro q hqmem
      simp only [Function.comp_apply, List.filter_filter, List.map_cons,
        List.contains_cons, Prod.mk.injEq]
      refine ⟨trivial, ?_⟩
      apply List.filter_congr
      intro x hx
      cases h1 : (x == p.1) <;>
        cases h2 : ((ps.filter (fun q => !(rem.contains q.2))).map Prod.fst).contains x <;>
        simp [h1, h2]

theorem lookupAssoc_map_snd {α : Type} (l : List (Nat × α)) (g : α → α) (k : Nat) :
    lookupAssoc (l.map (fun q => (q.1, g q.2))) k = (lookupAssoc l k).map g := by
  unfold lookupAssoc
  rw [List.find?_map]
  have hcomp : ((fun p : Nat × α => p.1 == k) ∘ (fun q : Nat × α => (q.1, g q.2))) =
      (fun q : Nat × α => q.1 == k) := rfl
  rw [hcomp]
  cases l.find? (fun q : Nat × α => q.1 == k) <;> simp

/-- The `add_file` loop at the end of `repopulate`, folding the leftover new
names into the state. -/
def addFilesFold (s : TagFS) (r : List String) : TagFS :=
  r.foldl (fun acc n => (acc.add_file n).2) s

theorem addFold_spec (r : List String) (s : TagFS)
    (hnd : r.Nodup)
    (hfresh : ∀ n ∈ r, ∀ p ∈ s.files, ¬ p.2 = n)
    (htal : ∀ p ∈ s.files, p.1 ≤ s.file_tally) :
    (∀ p ∈ s.files, p ∈ (addFilesFold s r).files) ∧
    (∀ p ∈ (addFilesFold s r).files,
      p ∈ s.files ∨ (s.file_tally < p.1 ∧ p.2 ∈ r)) ∧
    (∀ n ∈ r, ∃ f, (f, n) ∈ (addFilesFold s r).files ∧ s.file_tally < f) ∧
    (addFilesFold s r).tag_content = s.tag_content ∧
    (addFilesFold s r).tags = s.tags ∧
    (addFilesFold s r).tree = s.tree ∧
    s.file_tally ≤ (addFilesFold s r).file_tally := by
  induction r generalizing s with
  | nil =>
    exact ⟨fun p hp => hp, fun p hp => Or.inl hp,
      fun n hn => absurd hn (List.not_mem_nil n), rfl, rfl, rfl, Nat.le_refl _⟩
  | cons n ns ih =>
    rw [List.nodup_cons] at hnd
    obtain ⟨hn_notin, hnd'⟩ := hnd
    have hfold : addFilesFold s (n :: ns) = addFilesFold (s.add_file n).2 ns := rfl
    have hfiles2 : (s.add_file n).2.files = s.files ++ [(s.file_tally + 1, n)] := by
      unfold TagFS.add_file bimapInsert
      simp only []
      congr 1
      apply List.filter_eq_self.mpr
      intro p hp
      have h1 : (p.1 == s.file_tally + 1) = false := by
        rw [beq_eq_false_iff_ne]
        have := htal p hp
        omega
      have h2 : (p.2 == n) = false := by
        rw [beq_eq_false_iff_ne]
        exact hfresh n (List.mem_cons_self n ns) p hp
      rw [h1, h2]
      rfl
    have htally2 : (s.add_file n).2.file_tally = s.file_tally + 1 := rfl
    have htc2 : (s.add_file n).2.tag_content = s.tag_content := rfl
    have htags2 : (s.add_file n).2.tags = s.tags := rfl
    have htree2 : (s.add_file n).2.tree = s.tree := rfl
    have hfresh' : ∀ m ∈ ns, ∀ p ∈ (s.add_file n).2.files, ¬ p.2 = m := by
      intro m hm p hp
      rw [hfiles2, List.mem_append] at hp
      cases hp with
      | inl hp => exact hfresh m (List.mem_cons_of_mem n hm) p hp
      | inr hp =>
        rw [List.mem_singleton] at hp
        subst hp
        intro he
        have he' : n = m := he
        exact hn_notin (he'.symm ▸ hm)
    have htal' : ∀ p ∈ (s.add_file n).2.files, p.1 ≤ (s.add_file n).2.file_tally := by
      intro p hp
      rw [hfiles2, List.mem_append] at hp
      rw [htally2]
      cases hp with
      | inl hp => exact Nat.le_succ_of_le (htal p hp)
      | inr hp =>
        rw [List.mem_singleton] at hp
        subst hp
        exact Nat.le_refl _
    obtain ⟨i1, i2, i3, i4, i5, i6, i7⟩ := ih (s.add_file n).2 hnd' hfresh' htal'
    rw [hfold]
    refine ⟨?_, ?_, ?_, ?_, ?_, ?_, ?_⟩
    · intro p hp
      exact i1 p (by rw [hfiles2, List.mem_append]; exact Or.inl hp)
    · intro p hp
      cases i2 p hp with
      | inl hp2 =>
        rw [hfiles2, List.mem_append] at hp2
        cases hp2 with
        | inl h => exact Or.inl h
        | inr h =>
          rw [List.mem_singleton] at h
          subst h
          exact Or.inr ⟨Nat.lt_succ_self _, List.mem_cons_self n ns⟩
      | inr hp2 =>
        rw [htally2] at hp2
        exact Or.inr ⟨by omega, List.mem_cons_of_mem n hp2.2⟩
    · intro m hm
      cases List.mem_cons.mp hm with
      | inl h =>
        subst h
        refine ⟨s.file_tally + 1, ?_, Nat.lt_succ_self _⟩
        exact i1 (s.file_tally + 1, m)
          (by rw [hfiles2, List.mem_append, List.mem_singleton]; exact Or.inr rfl)
      | inr h =>
        obtain ⟨f, hf1, hf2⟩ := i3 m h
        rw [htally2] at hf2
        exact ⟨f, hf1, by omega⟩
    · rw [i4, htc2]
    · rw [i5, htags2]
    · rw [i6, htree2]
    · rw [htally2] at i7
      omega

/-- `repopulate` after its name-set preprocessing: reconcile the bindings
against the deduplicated name list `N`, then add the leftover names. -/
def reconcile (st : TagFS) (N : List String) : TagFS :=
  addFilesFold
    { st with files := (TagFS.repopGo st.files st.tag_content N).1,
              tag_content := (TagFS.repopGo st.files st.tag_content N).2.1 }
    (TagFS.repopGo st.files st.tag_content N).2.2

theorem repopulate_eq_reconcile (st : TagFS) (input : List String) :
    st.repopulate input =
      reconcile st (input.dedup.filter (fun n => !(n == tagfsName))) := rfl

theorem reconcile_spec (st : TagFS) (N : List String) (hNnd : N.Nodup)
    (hfile_nd : (st.files.map Prod.fst).Nodup)
    (hname_nd : (st.files.map Prod.snd).Nodup)
    (htal : ∀ p ∈ st.files, p.1 ≤ st.file_tally)
    (hcontent : ∀ p ∈ st.tag_content, ∀ x ∈ p.2, x ≤ st.file_tally) :
    (∀ n : String, (∃ f, (f, n) ∈ (reconcile st N).files) ↔ n ∈ N) ∧
    (∀ f n, (f, n) ∈ st.files → ¬ n ∈ N →
      (∀ m : String, ¬ (f, m) ∈ (reconcile st N).files) ∧
      (∀ p ∈ (reconcile st N).tag_content, ¬ f ∈ p.2)) ∧
    (∀ f n, (f, n) ∈ st.files → n ∈ N →
      (f, n) ∈ (reconcile st N).files ∧
      (∀ t s, lookupAssoc st.tag_content t = some s →
        ∃ s', lookupAssoc (reconcile st N).tag_content t = some s' ∧
          (f ∈ s' ↔ f ∈ s))) ∧
    (∀ n ∈ N, (∀ f, ¬ (f, n) ∈ st.files) →
      ∃ f, (f, n) ∈ (reconcile st N).files ∧ st.file_tally < f ∧
        (∀ p ∈ (reconcile st N).tag_content, ¬ f ∈ p.2)) := by
  have hA := repopGo_files st.files st.tag_content N hname_nd
  have hR := repopGo_rem st.files st.tag_content N hNnd hname_nd
  have hB := repopGo_tc st.files st.tag_content N hname_nd
  have hrec : reconcile st N =
      addFilesFold
        { st with files := st.files.filter (fun p => N.contains p.2),
                  tag_content := st.tag_content.map (fun q => (q.1, q.2.filter (fun x =>
                    !(((st.files.filter (fun p => !(N.contains p.2))).map Prod.fst).contains x)))) }
        (N.filter (fun n => !((st.files.map Prod.snd).contains n))) := by
    unfold reconcile
    rw [hA, hB, hR]
  rw [hrec]
  have hmemF : ∀ p : Nat × String,
      p ∈ st.files.filter (fun q => N.contains q.2) ↔ (p ∈ st.files ∧ p.2 ∈ N) := by
    intro p
    rw [List.mem_filter, contains_eq_decide_mem]
    simp
  have hmemR : ∀ n : String,
      n ∈ N.filter (fun m => !((st.files.map Prod.snd).contains m)) ↔
      (n ∈ N ∧ ∀ f, ¬ (f, n) ∈ st.files) := by
    intro n
    rw [List.mem_filter, contains_eq_decide_mem]
    simp only [Bool.not_eq_true', decide_eq_false_iff_not, List.mem_map]
    constructor
    · rintro ⟨h1, h2⟩
      refine ⟨h1, ?_⟩
      intro f hf
      exact h2 ⟨(f, n), hf, rfl⟩
    · rintro ⟨h1, h2⟩
      refine ⟨h1, ?_⟩
      rintro ⟨p, hp, hpn⟩
      exact h2 p.1 (by rw [← hpn]; exact hp)
  have hpurg : ∀ x : Nat,
      x ∈ (st.files.filter (fun p => !(N.contains p.2))).map Prod.fst ↔
      (∃ p ∈ st.files, ¬ p.2 ∈ N ∧ p.1 = x) := by
    intro x
    rw [List.mem_map]
    constructor
    · rintro ⟨p, hp, hpx⟩
      rw [List.mem_filter, contains_eq_decide_mem] at hp
      simp only [Bool.not_eq_true', decide_eq_false_iff_not] at hp
      exact ⟨p, hp.1, hp.2, hpx⟩
    · rintro ⟨p, hp, hpn, hpx⟩
      refine ⟨p, ?_, hpx⟩
      rw [List.mem_filter, contains_eq_decide_mem]
      simp only [Bool.not_eq_true', decide_eq_false_iff_not]
      exact ⟨hp, hpn⟩
  have hfresh' : ∀ n ∈ N.filter (fun m => !((st.files.map Prod.snd).contains m)),
      ∀ p ∈ st.files.filter (fun q => N.contains q.2), ¬ p.2 = n := by
    intro n hn p hp he
    obtain ⟨hn1, hn2⟩ := (hmemR n).mp hn
    obtain ⟨hp1, hp2⟩ := (hmemF p).mp hp
    exact hn2 p.1 (by rw [← he]; exact hp1)
  have htal' : ∀ p ∈ st.files.filter (fun q => N.contains q.2), p.1 ≤ st.file_tally :=
    fun p hp => htal p ((hmemF p).mp hp).1
  obtain ⟨i1, i2, i3, i4, i5, i6, i7⟩ :=
    addFold_spec (N.filter (fun m => !((st.files.map Prod.snd).contains m)))
      { st with files := st.files.filter (fun p => N.contains p.2),
                tag_content := st.tag_content.map (fun q => (q.1, q.2.filter (fun x =>
                  !(((st.files.filter (fun p => !(N.contains p.2))).map Prod.fst).contains x)))) }
      (hNnd.filter _) hfresh' htal'
  have hnotpurged : ∀ f n, (f, n) ∈ st.files → n ∈ N →
      ¬ f ∈ (st.files.filter (fun p => !(N.contains p.2))).map Prod.fst := by
    intro f n hfn hnN hmem
    obtain ⟨p, hp, hpn, hpx⟩ := (hpurg f).mp hmem
    have : p = (f, n) := pair_eq_of_nodup_fst hfile_nd hp hfn hpx
    rw [this] at hpn
    exact hpn hnN
  have hcontent' : ∀ p ∈ (st.tag_content.map (fun q => (q.1, q.2.filter (fun x =>
      !(((st.files.filter (fun p => !(N.contains p.2))).map Prod.fst).contains x))))),
      ∀ x ∈ p.2, x ≤ st.file_tally := by
    intro p hp x hx
    obtain ⟨q, hq, rfl⟩ := List.mem_map.mp hp
    simp only [List.mem_filter] at hx
    exact hcontent q hq x hx.1
  refine ⟨?_, ?_, ?_, ?_⟩
  · intro n
    constructor
    · rintro ⟨f, hf⟩
      cases i2 (f, n) hf with
      | inl h => exact ((hmemF (f, n)).mp h).2
      | inr h => exact ((hmemR n).mp h.2).1
    · intro hnN
      by_cases hb : ∃ f, (f, n) ∈ st.files
      · obtain ⟨f, hf⟩ := hb
        exact ⟨f, i1 (f, n) ((hmemF (f, n)).mpr ⟨hf, hnN⟩)⟩
      · push_neg at hb
        obtain ⟨f, hf1, hf2⟩ := i3 n ((hmemR n).mpr ⟨hnN, hb⟩)
        exact ⟨f, hf1⟩
  · intro f n hfn hnN
    constructor
    · intro m hm
      cases i2 (f, m) hm with
      | inl h =>
        obtain ⟨h1, h2⟩ := (hmemF (f, m)).mp h
        have heq : ((f, m) : Nat × String) = (f, n) :=
          pair_eq_of_nodup_fst hfile_nd h1 hfn rfl
        have hmn : m = n := by injection heq
        exact hnN (hmn ▸ h2)
      | inr h =>
        have hle := htal (f, n) hfn
        have hlt : st.file_tally < f := h.1
        omega
    · intro p hp hfp
      rw [i4] at hp
      obtain ⟨q, hq, rfl⟩ := List.mem_map.mp hp
      simp only [List.mem_filter] at hfp
      obtain ⟨hfq, hnp⟩ := hfp
      rw [Bool.not_eq_true', contains_eq_decide_mem, decide_eq_false_iff_not] at hnp
      exact hnp ((hpurg f).mpr ⟨(f, n), hfn, hnN, rfl⟩)
  · intro f n hfn hnN
    constructor
    · exact i1 (f, n) ((hmemF (f, n)).mpr ⟨hfn, hnN⟩)
    · intro t s hts
      rw [i4]
      rw [show ({ st with
            files := st.files.filter (fun p => N.contains p.2),
            tag_content := st.tag_content.map (fun q => (q.1, q.2.filter (fun x =>
              !(((st.files.filter (fun p => !(N.contains p.2))).map Prod.fst).contains x)))) } :
          TagFS).tag_content =
          st.tag_content.map (fun q => (q.1, q.2.filter (fun x =>
            !(((st.files.filter (fun p => !(N.contains p.2))).map Prod.fst).contains x))))
        from rfl]
      rw [lookupAssoc_map_snd, hts]
      refine ⟨_, rfl, ?_⟩
      rw [List.mem_filter]
      constructor
      · exact fun h => h.1
      · intro h1
        refine ⟨h1, ?_⟩
        rw [Bool.not_eq_true', contains_eq_decide_mem, decide_eq_false_iff_not]
        exact hnotpurged f n hfn hnN
  · intro n hnN hunbound
    obtain ⟨f, hf1, hf2⟩ := i3 n ((hmemR n).mpr ⟨hnN, hunbound⟩)
    refine ⟨f, hf1, hf2, ?_⟩
    intro p hp hfp
    rw [i4] at hp
    obtain ⟨q, hq, rfl⟩ := List.mem_map.mp hp
    simp only [List.mem_filter] at hfp
    have := hcontent q hq f hfp.1
    have hlt : st.file_tally < f := hf2
    omega

/-- C4: after `repopulate(N)`, the bound filenames are exactly `N` minus
`.tagfs`; a file number whose name was not in `N` is gone from `files` and
from every `tag_content` set; a file number whose name was in `N` keeps its
binding and its membership in every `tag_content` set; and every name of `N`
not previously bound is added as a new untagged file (a fresh number above
the old tally, in no `tag_content` set). -/
theorem repopulate_spec (st : TagFS) (input : List String)
    (hfile_nd : (st.files.map Prod.fst).Nodup)
    (hname_nd : (st.files.map Prod.snd).Nodup)
    (htal : ∀ p ∈ st.files, p.1 ≤ st.file_tally)
    (hcontent : ∀ p ∈ st.tag_content, ∀ x ∈ p.2, x ≤ st.file_tally) :
    (∀ n : String, (∃ f, (f, n) ∈ (st.repopulate input).files) ↔
      (n ∈ input ∧ ¬ n = tagfsName)) ∧
    (∀ f n, (f, n) ∈ st.files → ¬ n ∈ input →
      (∀ m : String, ¬ (f, m) ∈ (st.repopulate input).files) ∧
      (∀ p ∈ (st.repopulate input).tag_content, ¬ f ∈ p.2)) ∧
    (∀ f n, (f, n) ∈ st.files → n ∈ input → ¬ n = tagfsName →
      (f, n) ∈ (st.repopulate input).files ∧
      (∀ t s, lookupAssoc st.tag_content t = some s →
        ∃ s', lookupAssoc (st.repopulate input).tag_content t = some s' ∧
          (f ∈ s' ↔ f ∈ s))) ∧
    (∀ n, n ∈ input → ¬ n = tagfsName → (∀ f, ¬ (f, n) ∈ st.files) →
      ∃ f, (f, n) ∈ (st.repopulate input).files ∧ st.file_tally < f ∧
        (∀ p ∈ (st.repopulate input).tag_content, ¬ f ∈ p.2)) := by
  have hNnd : (input.dedup.filter (fun n => !(n == tagfsName))).Nodup :=
    (List.nodup_dedup input).filter _
  have hNmem : ∀ n : String,
      n ∈ input.dedup.filter (fun m => !(m == tagfsName)) ↔
      (n ∈ input ∧ ¬ n = tagfsName) := by
    intro n
    rw [List.mem_filter, List.mem_dedup]
    simp
  obtain ⟨c1, c2, c3, c4⟩ := reconcile_spec st
    (input.dedup.filter (fun n => !(n == tagfsName))) hNnd hfile_nd hname_nd
    htal hcontent
  rw [repopulate_eq_reconcile]
  refine ⟨?_, ?_, ?_, ?_⟩
  · intro n
    exact (c1 n).trans (hNmem n)
  · intro f n hfn hnot
    exact c2 f n hfn (fun hN => hnot ((hNmem n).mp hN).1)
  · intro f n hfn hin hne
    exact c3 f n hfn ((hNmem n).mpr ⟨hin, hne⟩)
  · intro n hin hne hunb
    exact c4 n ((hNmem n).mpr ⟨hin, hne⟩) hunb

def stC4 : TagFS :=
  { tree := TagTree.new, tag_content := [(1, [2])], files := [(2, nameA)],
    tags := [], file_tally := 2 }

/-- Witness for C4: re-indexing with one retained and one new name. -/
theorem repopulate_spec_witness :
    ((2, nameA) ∈ (stC4.repopulate [nameA, nameB]).files) ∧
    (∃ s', lookupAssoc (stC4.repopulate [nameA, nameB]).tag_content 1 = some s' ∧
      ((2 : Nat) ∈ s' ↔ (2 : Nat) ∈ [2])) ∧
    (∃ f, (f, nameB) ∈ (stC4.repopulate [nameA, nameB]).files ∧
      stC4.file_tally < f) := by
  have h := repopulate_spec stC4 [nameA, nameB] (by decide) (by decide)
    (by decide) (by decide)
  have hc := h.2.2.1 2 nameA (by decide) (by decide) (by decide)
  have hd := h.2.2.2 nameB (by decide) (by decide)
    (by
      intro f hf
      have hf' : ((f, nameB) : Nat × String) ∈ [((2 : Nat), nameA)] := hf
      rw [List.mem_singleton] at hf'
      have : nameB = nameA := by injection hf'
      exact absurd this (by decide))
  refine ⟨hc.1, hc.2 1 [2] (by decide), ?_⟩
  obtain ⟨f, hf1, hf2, _⟩ := hd
  exact ⟨f, hf1, hf2⟩

/-- Witness for C1's amended theorem: empty path yields the universe, and on
path `[1, 2]` with only tag 1 present the result is characterized by the
present tag's set alone. -/
theorem calculate_intersection_spec_witness :
    stC1.calculate_intersection [] = some (stC1.files.map Prod.fst) ∧
    ((7 : Nat) ∈ [7] ↔ ∀ p ∈ stC1.tag_content, p.1 ∈ [1, 2] → (7 : Nat) ∈ p.2) :=
  ⟨(calculate_intersection_spec stC1 []).1 rfl,
   ((calculate_intersection_spec stC1 [1, 2]).2 (by decide)).2.2 [7] (by decide) 7⟩
